import Mathlib

/-!
# sphx-vm: order book snapshot, order wire form, batch-issuing agent

Shallow embedding of

* `src/cmd/simulator/txs/agent.go` : `issueNAgent.Execute`
* `src/orderbook/order.go` : `Order.MarshalJSON`, `Order.UnmarshalJSON`,
  `OrderBook.GetOrderSide`, `OrderBook.MarketOverview`, `compileOrders`

Definitions come first, theorems after them.
-/

/-! ## Part I : `txs.issueNAgent` (agent.go) -/

namespace Txs

/-- One observable step of `Execute`: a call on the worker, or the call
`log.Info("Execution complete", ...)` of line 95. -/
inductive Event (T : Type) where
  | IssueTx (tx : T)
  | ConfirmTx (tx : T)
  | Close
  | LogComplete
  deriving DecidableEq, Repr

/-- The `Worker[T]` interface (lines 28-32). An implementation is arbitrary
stateful code, so each method answers as a function of everything `Execute` has
done so far; `none` is Go's `nil` error, `some e` an error whose text is `e`. -/
structure Worker (T : Type) where
  IssueTx : List (Event T) → T → Option String
  ConfirmTx : List (Event T) → T → Option String
  Close : List (Event T) → Option String

/-- The `context.Context` handed to `Execute`. `done h` tells whether the
`select` of lines 73-80, reached after the steps `h`, takes the `ctx.Done()`
case; `err` is the text of `ctx.Err()`. -/
structure Context (T : Type) where
  done : List (Event T) → Bool
  err : String

/-- The `TxSequence[T]` interface (lines 21-23) for a sequence that closes its
channel after a finite number of transactions: `pending` are the transactions
delivered by successive receives (the channel reports closed after them),
`buffered` is what `len(txChan)` reads at line 62. -/
structure TxSequence (T : Type) where
  pending : List T
  buffered : Nat

/-- What the call `logOtherMetrics()` of line 96 does (function of lines 102-119,
which talks to the metrics endpoint of the node): it returns (the request or the
reading of the body fails, or a metrics line is found and logged; `Execute`
discards the returned error); it panics at line 117, where
`matches[len(matches)-1]` indexes at -1 when no line of the body matches; or it
never comes back from `http.Get`. -/
inductive MetricsOutcome where
  | returns
  | panics
  | hangs
  deriving DecidableEq, Repr

/-- The surroundings `Execute` runs in. `maxCap` is the largest capacity for
which `make([]T, 0, c)` of line 68 succeeds; Go requires a capacity to fit an
`int`, hence the bound. `metrics` is what `logOtherMetrics()` does if it is
called. -/
structure Runtime where
  maxCap : Nat
  maxCap_lt : maxCap < 2 ^ 63
  metrics : MetricsOutcome

/-- The struct `issueNAgent` (lines 40-44); `n` is a `uint64`. -/
structure issueNAgent (T : Type) where
  sequence : TxSequence T
  worker : Worker T
  n : Nat
  n_lt : n < 2 ^ 64

/-- Constructor `NewIssueNAgent` (lines 47-53). -/
def NewIssueNAgent {T : Type} (sequence : TxSequence T) (worker : Worker T) (n : Nat)
    (h : n < 2 ^ 64) : issueNAgent T :=
  { sequence := sequence, worker := worker, n := n, n_lt := h }

/-- How a call of `Execute` ends: it returns an error value (`none` is `nil`), it
panics with a run-time error, or it never returns. -/
inductive Outcome where
  | returned (err : Option String)
  | panicked (msg : String)
  | hung
  deriving DecidableEq, Repr

/-- Mutable state of one `Execute` call: the steps taken so far, the
transactions not yet received from the channel, and `confirmedCount`. -/
structure State (T : Type) where
  trace : List (Event T)
  chan : List T
  confirmedCount : Nat
  deriving DecidableEq, Repr

/-- Control flow out of a loop of `Execute`: `stopped o st` ends the whole call
with outcome `o`; `next txs st` falls through to the statement after the loop with
the batch `txs`. -/
inductive Flow (T : Type) where
  | stopped (o : Outcome) (st : State T)
  | next (txs : List T) (st : State T)
  deriving DecidableEq, Repr

/-- The issuing loop of lines 72-86 with `k` iterations left (`k = a.n - i`; the
counter `i` stays below `a.n` and cannot wrap) and `txs` the batch collected so
far. -/
def issueLoop {T : Type} (w : Worker T) (ctx : Context T) :
    Nat → List T → State T → Flow T
  | 0, txs, st => Flow.next txs st
  | k + 1, txs, st =>
    if ctx.done st.trace then
      Flow.stopped (Outcome.returned (some ctx.err)) st
    else
      match st.chan with
      | [] =>
        Flow.stopped (Outcome.returned (w.Close st.trace))
          { st with trace := st.trace ++ [Event.Close] }
      | tx :: rest =>
        match w.IssueTx st.trace tx with
        | some e =>
          Flow.stopped
            (Outcome.returned
              (some ("failed to issue transaction " ++ toString txs.length ++ ": " ++ e)))
            { st with chan := rest, trace := st.trace ++ [Event.IssueTx tx] }
        | none =>
          issueLoop w ctx k (txs ++ [tx])
            { st with chan := rest, trace := st.trace ++ [Event.IssueTx tx] }

/-- The confirmation loop of lines 88-98 over the rest of the batch, `i` being
the index of its first element. When `confirmedCount` reaches `totalTxs` the block
of lines 94-96 runs: the completion is logged and `logOtherMetrics()` is called. -/
def confirmLoop {T : Type} (rt : Runtime) (w : Worker T) (totalTxs : Nat) :
    Nat → List T → State T → Flow T
  | _, [], st => Flow.next [] st
  | i, tx :: rest, st =>
    match w.ConfirmTx st.trace tx with
    | some e =>
      Flow.stopped
        (Outcome.returned (some ("failed to await transaction " ++ toString i ++ ": " ++ e)))
        { st with trace := st.trace ++ [Event.ConfirmTx tx] }
    | none =>
      if st.confirmedCount + 1 = totalTxs then
        match rt.metrics with
        | MetricsOutcome.returns =>
          confirmLoop rt w totalTxs (i + 1) rest
            { st with
              confirmedCount := st.confirmedCount + 1
              trace := st.trace ++ [Event.ConfirmTx tx] ++ [Event.LogComplete] }
        | MetricsOutcome.panics =>
          Flow.stopped (Outcome.panicked "runtime error: index out of range [-1]")
            { st with
              confirmedCount := st.confirmedCount + 1
              trace := st.trace ++ [Event.ConfirmTx tx] ++ [Event.LogComplete] }
        | MetricsOutcome.hangs =>
          Flow.stopped Outcome.hung
            { st with
              confirmedCount := st.confirmedCount + 1
              trace := st.trace ++ [Event.ConfirmTx tx] ++ [Event.LogComplete] }
      else
        confirmLoop rt w totalTxs (i + 1) rest
          { st with
            confirmedCount := st.confirmedCount + 1
            trace := st.trace ++ [Event.ConfirmTx tx] }

/-- The outer `for` of lines 66-99. Every pass starts with the allocation
`make([]T, 0, a.n)` of line 68, which panics when `a.n` is beyond what the runtime
grants. Every pass needs one unit of fuel; `none` means the fuel ran out before
the call ended. -/
def executeLoop {T : Type} (rt : Runtime) (w : Worker T) (ctx : Context T)
    (n totalTxs : Nat) : Nat → State T → Option (Outcome × State T)
  | 0, _ => none
  | fuel + 1, st =>
    if rt.maxCap < n then
      some (Outcome.panicked "runtime error: makeslice: cap out of range", st)
    else
      match issueLoop w ctx n [] st with
      | Flow.stopped o st1 => some (o, st1)
      | Flow.next txs st1 =>
        match confirmLoop rt w totalTxs 0 txs st1 with
        | Flow.stopped o st2 => some (o, st2)
        | Flow.next _ st2 => executeLoop rt w ctx n totalTxs fuel st2

/-- Method `issueNAgent.Execute` (lines 56-100): how the call ends, together with
the final state. With `n = 0` it returns before `a.sequence.Chan()`. -/
def Execute {T : Type} (rt : Runtime) (a : issueNAgent T) (ctx : Context T) (fuel : Nat) :
    Option (Outcome × State T) :=
  if a.n = 0 then
    some (Outcome.returned (some "batch size n cannot be equal to 0"),
      { trace := [], chan := a.sequence.pending, confirmedCount := 0 })
  else
    executeLoop rt a.worker ctx a.n a.sequence.buffered fuel
      { trace := [], chan := a.sequence.pending, confirmedCount := 0 }

/-- Whether a step is a call on the worker. -/
def Event.isWorkerCall {T : Type} : Event T → Bool
  | Event.LogComplete => false
  | _ => true

/-- The calls made on the worker, in order. -/
def workerCalls {T : Type} (trace : List (Event T)) : List (Event T) :=
  trace.filter Event.isWorkerCall

/-- A worker whose three methods always succeed. -/
def okWorker (T : Type) : Worker T :=
  { IssueTx := fun _ _ => none, ConfirmTx := fun _ _ => none, Close := fun _ => none }

/-- A context that is never cancelled. -/
def background (T : Type) : Context T :=
  { done := fun _ => false, err := "context canceled" }

/-- The most generous surroundings: every capacity that fits a 64-bit `int` is
granted and `logOtherMetrics()` returns. -/
def generous : Runtime :=
  { maxCap := 2 ^ 63 - 1, maxCap_lt := by decide, metrics := MetricsOutcome.returns }

/-- The calls `Execute` is expected to make for the full batches `chunks`
followed by the incomplete batch `rest`, up to but excluding `Close`. -/
def batchCalls {T : Type} (chunks : List (List T)) (rest : List T) : List (Event T) :=
  (chunks.flatMap fun c => c.map Event.IssueTx ++ c.map Event.ConfirmTx) ++ rest.map Event.IssueTx

/-- What C9 says of a run: `Execute` returns what `Close` returned, after calls on
the worker that are exactly the batch-wise `IssueTx`/`ConfirmTx` calls, the
`IssueTx` calls of the incomplete batch and one final `Close`. -/
def BatchRun {T : Type} (rt : Runtime) (n : Nat) (h : n < 2 ^ 64) (chunks : List (List T))
    (rest : List T) (w : Worker T) (ctx : Context T) (buffered fuel : Nat) : Prop :=
  ∃ (tr : List (Event T)) (cnt : Nat),
    Execute rt (NewIssueNAgent { pending := chunks.flatten ++ rest, buffered := buffered } w n h)
        ctx fuel =
      some (Outcome.returned (w.Close tr),
        { trace := tr ++ [Event.Close], chan := [], confirmedCount := cnt }) ∧
    workerCalls (tr ++ [Event.Close]) = batchCalls chunks rest ++ [Event.Close]

end Txs

/-! ## Part II : the order book snapshot (order.go, lines 119-163) -/

namespace Orderbook

/-- Modelled from the spec: the type `PriceLevel` (not in src/): the resting
orders at one price, observed by `compileOrders` only through `Price()` and
`Volume()`; the level is represented by these two values, its price and its
maintained aggregate volume. `D` stands for `decimal.Decimal`. -/
structure PriceLevel (D : Type) where
  price : D
  volume : D
  deriving DecidableEq, Repr

/-- Observer `Price()` of a level. -/
def PriceLevel.Price {D : Type} (level : PriceLevel D) : D := level.price

/-- Observer `Volume()` of a level. -/
def PriceLevel.Volume {D : Type} (level : PriceLevel D) : D := level.volume

/-- Modelled from the spec: the type `OrderSide` (not in src/), "mapping from
price to PriceLevel": the levels it currently holds, in no particular order. -/
structure OrderSide (D : Type) where
  levels : List (PriceLevel D)
  deriving DecidableEq, Repr

/-- Modelled from the spec: method `OrderSide.MaxPriceQueue` (not in src/),
which `compileOrders` calls where the spec says `BestLevel`; under the name of
the call site it is the level of maximal price, none on a side without levels. -/
def OrderSide.MaxPriceQueue {D : Type} [LinearOrder D] (orders : OrderSide D) :
    Option (PriceLevel D) :=
  orders.levels.argmax PriceLevel.Price

/-- Modelled from the spec: method `OrderSide.LessThan` (not in src/), which
`compileOrders` calls where the spec says `NextLevel`; under the name of the
call site it is the nearest level whose price is less than `price`, none when
there is no such level. -/
def OrderSide.LessThan {D : Type} [LinearOrder D] (orders : OrderSide D) (price : D) :
    Option (PriceLevel D) :=
  (orders.levels.filter fun l => l.Price < price).argmax PriceLevel.Price

/-- The struct `OrderBook`, of which the source uses the fields `asks` and
`bids`, both `*OrderSide` (`none` is the nil pointer). -/
structure OrderBook (D : Type) where
  asks : Option (OrderSide D)
  bids : Option (OrderSide D)

/-- Method `OrderBook.GetOrderSide` (lines 120-127). `Side` and its constant
`Buy` are declared outside src/ and are parameters. -/
def OrderBook.GetOrderSide {D Side : Type} [DecidableEq Side] (Buy : Side)
    (ob : OrderBook D) (side : Side) : Option (OrderSide D) :=
  if side = Buy then ob.bids else ob.asks

/-- A Go `map[string]decimal.Decimal`: the value stored under each key, `none`
for a key that is not present. -/
abbrev PriceMap (D : Type) := String → Option D

/-- The map `make(map[string]decimal.Decimal)`: present, no entry. -/
def PriceMap.empty (D : Type) : PriceMap D := fun _ => none

/-- The assignment `queue[k] = v`. -/
def PriceMap.set {D : Type} (queue : PriceMap D) (k : String) (v : D) : PriceMap D :=
  fun k1 => if k1 = k then some v else queue k1

/-- The struct `MarketView` (lines 22-25). -/
structure MarketView (D : Type) where
  Asks : PriceMap D
  Bids : PriceMap D

/-- Body of the loop of `compileOrders` (lines 151-155); `str` is
`decimal.Decimal.String`. -/
def compileStep {D : Type} [Add D] (str : D → String) (queue : PriceMap D)
    (level : PriceLevel D) : PriceMap D :=
  match queue (str level.Price) with
  | some q => queue.set (str level.Price) (q + level.Volume)
  | none => queue.set (str level.Price) level.Volume

/-- The loop `for level != nil` of `compileOrders` (lines 150-158), one unit of
fuel per pass; `none` means the fuel ran out before the loop ended. -/
def compileLoop {D : Type} [LinearOrder D] [Add D] (str : D → String) (orders : OrderSide D) :
    Nat → Option (PriceLevel D) → PriceMap D → Option (PriceMap D)
  | _, none, queue => some queue
  | 0, some _, _ => none
  | fuel + 1, some level, queue =>
    compileLoop str orders fuel (orders.LessThan level.Price) (compileStep str queue level)

/-- Function `compileOrders` (lines 144-163). -/
def compileOrders {D : Type} [LinearOrder D] [Add D] (str : D → String) (fuel : Nat) :
    Option (OrderSide D) → Option (PriceMap D)
  | none => some (PriceMap.empty D)
  | some orders => compileLoop str orders fuel orders.MaxPriceQueue (PriceMap.empty D)

/-- Method `OrderBook.MarketOverview` (lines 135-141). -/
def OrderBook.MarketOverview {D : Type} [LinearOrder D] [Add D] (str : D → String)
    (fuel : Nat) (ob : OrderBook D) : Option (MarketView D) :=
  match compileOrders str fuel ob.asks, compileOrders str fuel ob.bids with
  | some asks, some bids => some { Asks := asks, Bids := bids }
  | _, _ => none

/-- The levels the loop of `compileOrders` passes through, in order: the same
iteration as `compileLoop`, recording `level` instead of updating the map. -/
def visitLoop {D : Type} [LinearOrder D] (orders : OrderSide D) :
    Nat → Option (PriceLevel D) → Option (List (PriceLevel D))
  | _, none => some []
  | 0, some _ => none
  | fuel + 1, some level =>
    (visitLoop orders fuel (orders.LessThan level.Price)).map fun rest => level :: rest

/-- The levels one `compileOrders` traversal of a side visits, in order. -/
def visited {D : Type} [LinearOrder D] (fuel : Nat) :
    Option (OrderSide D) → Option (List (PriceLevel D))
  | none => some []
  | some orders => visitLoop orders fuel orders.MaxPriceQueue

/-- The levels held by a side; a nil side holds none. -/
def sideLevels {D : Type} : Option (OrderSide D) → List (PriceLevel D)
  | none => []
  | some orders => orders.levels

/-- The visited levels that produce the key `k`. -/
def keyed {D : Type} (str : D → String) (k : String) (v : List (PriceLevel D)) :
    List (PriceLevel D) :=
  v.filter fun l => str l.Price = k

/-- Step from a visited level `a` to the next visited level `b` of a highest-first
walk over `levels`: `b` is lower-priced than `a` and no level below `a` is priced
above `b`. -/
def NextLower {D : Type} [LinearOrder D] (levels : List (PriceLevel D))
    (a b : PriceLevel D) : Prop :=
  b.Price < a.Price ∧ ∀ l ∈ levels, l.Price < a.Price → l.Price ≤ b.Price

/-- Step from `a` to `b` of a lowest-first walk over `levels`. -/
def NextHigher {D : Type} [LinearOrder D] (levels : List (PriceLevel D))
    (a b : PriceLevel D) : Prop :=
  a.Price < b.Price ∧ ∀ l ∈ levels, a.Price < l.Price → b.Price ≤ l.Price

/-- The walk `v` goes through `levels` from the highest price downwards: it starts
at a level of maximal price, every step moves to the next lower-priced level, it
only passes through levels of the side, and it leaves no price out. -/
def HighToLow {D : Type} [LinearOrder D] (levels v : List (PriceLevel D)) : Prop :=
  (∀ first ∈ v.head?, ∀ l ∈ levels, l.Price ≤ first.Price) ∧
  List.Chain' (NextLower levels) v ∧
  (∀ x ∈ v, x ∈ levels) ∧
  (∀ l ∈ levels, l.Price ∈ v.map PriceLevel.Price)

/-- The walk `v` goes through `levels` from the lowest price upwards. -/
def LowToHigh {D : Type} [LinearOrder D] (levels v : List (PriceLevel D)) : Prop :=
  (∀ first ∈ v.head?, ∀ l ∈ levels, first.Price ≤ l.Price) ∧
  List.Chain' (NextHigher levels) v ∧
  (∀ x ∈ v, x ∈ levels) ∧
  (∀ l ∈ levels, l.Price ∈ v.map PriceLevel.Price)

/-- Adding one more volume to what is stored under a key (`none`: no entry yet). -/
def addVolume {D : Type} [Add D] (acc : Option D) (x : D) : Option D :=
  match acc with
  | some a => some (a + x)
  | none => some x

/-- The sum of `Volume()` over the visited levels `v` whose price key is `k`; no
value when no visited level has that key. -/
def volumeAt {D : Type} [AddMonoid D] (str : D → String) (k : String)
    (v : List (PriceLevel D)) : Option D :=
  if (keyed str k v).isEmpty then none
  else some ((keyed str k v).map PriceLevel.Volume).sum

/-- The map `queue` is the snapshot of `levels`: under the price key of every level
it stores that level's volume, and it has no other key. -/
def Snapshot {D : Type} (str : D → String) (levels : List (PriceLevel D))
    (queue : PriceMap D) : Prop :=
  (∀ l ∈ levels, queue (str l.Price) = some l.Volume) ∧
  (∀ k, queue k ≠ none → ∃ l ∈ levels, str l.Price = k)

/-- The traversal order C3 attributes to `MarketOverview`: both walks end, asks
are walked from the lowest price upwards and bids from the highest price
downwards. -/
def BestToWorst {D : Type} [LinearOrder D] (fuel : Nat) (ob : OrderBook D) : Prop :=
  ∃ va vb, visited fuel ob.asks = some va ∧ visited fuel ob.bids = some vb ∧
    LowToHigh (sideLevels ob.asks) va ∧ HighToLow (sideLevels ob.bids) vb

/-- A book with two ask levels, 10 at price 1 and 20 at price 2, and no bid. -/
def twoAsks : OrderBook Int :=
  { asks := some { levels := [{ price := 1, volume := 10 }, { price := 2, volume := 20 }] },
    bids := some { levels := [] } }

/-- A book with asks 3 at price 12 and 4 at price 14, and bids 5 at price 10 and
2 at price 9. -/
def sampleBook : OrderBook Int :=
  { asks := some { levels := [{ price := 12, volume := 3 }, { price := 14, volume := 4 }] },
    bids := some { levels := [{ price := 9, volume := 2 }, { price := 10, volume := 5 }] } }

/-! ## Part III : the wire form of an order (order.go, lines 11-117) -/

/-- A Go `string`: any sequence of bytes, valid UTF-8 or not. -/
abbrev GoString := List (Fin 256)

/-- The struct `Order` (lines 12-19). `Side` is declared outside src/, `D` stands
for `decimal.Decimal` and `Time` for `time.Time`. -/
structure Order (Side D Time : Type) where
  id : GoString
  accountId : GoString
  side : Side
  quantity : D
  price : D
  timestamp : Time
  deriving DecidableEq, Repr

/-- Constructor `NewOrder` (lines 28-37). -/
def NewOrder {Side D Time : Type} (orderId accountId : GoString) (side : Side)
    (quantity price : D) (timestamp : Time) : Order Side D Time :=
  { id := orderId, accountId := accountId, side := side, quantity := quantity,
    price := price, timestamp := timestamp }

/-- The anonymous struct that `MarshalJSON` (lines 77-84) and `UnmarshalJSON`
(lines 97-104) hand to `encoding/json`, with the fields in declaration order. -/
structure OrderRecord (Side D Time : Type) where
  ID : GoString
  AccountId : GoString
  Timestamp : Time
  Quantity : D
  Price : D
  S : Side
  deriving DecidableEq, Repr

/-- What `encoding/json` does with one Go type, `J` being the type of JSON values:
the zero value of the type, `json.Marshal` of a value (`none`: an error) and
`json.Unmarshal` of a JSON value into a variable holding `current` (`none`: an
error). -/
structure FieldType (J α : Type) where
  zero : α
  marshal : α → Option J
  unmarshal : J → α → Option α

/-- The library code the two methods rely on: the JSON forms of `string`,
`time.Time`, `decimal.Decimal` and `Side`, and the case folding (`foldName`) by
which `encoding/json` matches a member name that equals no field name exactly. -/
structure Codecs (J Side D Time : Type) where
  string : FieldType J GoString
  time : FieldType J Time
  decimal : FieldType J D
  side : FieldType J Side
  foldName : String → String

/-- The bytes given to `json.Unmarshal`, as far as decoding into a struct tells
them apart: not JSON at all, the literal `null`, an object with its members in
order, or any other JSON value. -/
inductive Document (J : Type) where
  | malformed
  | null
  | object (members : List (String × J))
  | other
  deriving DecidableEq, Repr

/-- The fields of the anonymous struct. -/
inductive Field where
  | ID
  | AccountId
  | Timestamp
  | Quantity
  | Price
  | S
  deriving DecidableEq, Repr

/-- The `json:"..."` tag of each field (lines 78-83 and 98-103). -/
def Field.tag : Field → String
  | Field.ID => "id"
  | Field.AccountId => "accountId"
  | Field.Timestamp => "timestamp"
  | Field.Quantity => "quantity"
  | Field.Price => "price"
  | Field.S => "side"

/-- The fields in declaration order. -/
def Field.all : List Field :=
  [Field.ID, Field.AccountId, Field.Timestamp, Field.Quantity, Field.Price, Field.S]

/-- The field `encoding/json` stores a member named `key` into: the field whose
tag is `key`, else the first field whose tag equals `key` up to case folding,
else none (the member is skipped). -/
def Field.lookup (foldName : String → String) (key : String) : Option Field :=
  match Field.all.find? fun f => f.tag = key with
  | some f => some f
  | none => Field.all.find? fun f => foldName f.tag = foldName key

/-- Decoding of one object member into the struct. -/
def storeMember {J Side D Time : Type} (c : Codecs J Side D Time)
    (obj : OrderRecord Side D Time) (member : String × J) :
    Option (OrderRecord Side D Time) :=
  match Field.lookup c.foldName member.1 with
  | none => some obj
  | some Field.ID => (c.string.unmarshal member.2 obj.ID).map fun v => { obj with ID := v }
  | some Field.AccountId =>
    (c.string.unmarshal member.2 obj.AccountId).map fun v => { obj with AccountId := v }
  | some Field.Timestamp =>
    (c.time.unmarshal member.2 obj.Timestamp).map fun v => { obj with Timestamp := v }
  | some Field.Quantity =>
    (c.decimal.unmarshal member.2 obj.Quantity).map fun v => { obj with Quantity := v }
  | some Field.Price =>
    (c.decimal.unmarshal member.2 obj.Price).map fun v => { obj with Price := v }
  | some Field.S => (c.side.unmarshal member.2 obj.S).map fun v => { obj with S := v }

/-- Decoding of the members of an object, in order, into the struct. -/
def storeMembers {J Side D Time : Type} (c : Codecs J Side D Time) :
    List (String × J) → OrderRecord Side D Time → Option (OrderRecord Side D Time)
  | [], obj => some obj
  | member :: rest, obj =>
    match storeMember c obj member with
    | none => none
    | some obj1 => storeMembers c rest obj1

/-- The call `json.Marshal` on the anonymous struct: an object with one member per
field, in declaration order; an error of a field is an error of the whole. -/
def marshalRecord {J Side D Time : Type} (c : Codecs J Side D Time)
    (obj : OrderRecord Side D Time) : Option (Document J) :=
  match c.string.marshal obj.ID, c.string.marshal obj.AccountId,
      c.time.marshal obj.Timestamp, c.decimal.marshal obj.Quantity,
      c.decimal.marshal obj.Price, c.side.marshal obj.S with
  | some id, some account, some timestamp, some quantity, some price, some side =>
    some (Document.object
      [(Field.ID.tag, id), (Field.AccountId.tag, account), (Field.Timestamp.tag, timestamp),
        (Field.Quantity.tag, quantity), (Field.Price.tag, price), (Field.S.tag, side)])
  | _, _, _, _, _, _ => none

/-- The call `json.Unmarshal(data, &obj)` on the anonymous struct `obj`. -/
def unmarshalRecord {J Side D Time : Type} (c : Codecs J Side D Time)
    (data : Document J) (obj : OrderRecord Side D Time) :
    Option (OrderRecord Side D Time) :=
  match data with
  | Document.malformed => none
  | Document.other => none
  | Document.null => some obj
  | Document.object members => storeMembers c members obj

/-- Method `Order.MarshalJSON` (lines 75-93); `none` is a non-nil error. -/
def Order.MarshalJSON {J Side D Time : Type} (c : Codecs J Side D Time)
    (o : Order Side D Time) : Option (Document J) :=
  marshalRecord c
    { S := o.side, ID := o.id, AccountId := o.accountId, Timestamp := o.timestamp,
      Quantity := o.quantity, Price := o.price }

/-- Method `Order.UnmarshalJSON` (lines 96-117): the order the receiver holds
afterwards; `none` is a non-nil error, the receiver being left as it was. -/
def Order.UnmarshalJSON {J Side D Time : Type} (c : Codecs J Side D Time)
    (data : Document J) : Option (Order Side D Time) :=
  match unmarshalRecord c data
      { ID := c.string.zero, AccountId := c.string.zero, Timestamp := c.time.zero,
        Quantity := c.decimal.zero, Price := c.decimal.zero, S := c.side.zero } with
  | none => none
  | some obj =>
    some { id := obj.ID, accountId := obj.AccountId, timestamp := obj.Timestamp,
           quantity := obj.Quantity, price := obj.Price, side := obj.S }

/-- The value `a` survives its own type's JSON form: marshalling succeeds and
unmarshalling the result into a zero variable gives `a` back. -/
def FieldType.RoundTrips {J α : Type} (t : FieldType J α) (a : α) : Prop :=
  ∃ j, t.marshal a = some j ∧ t.unmarshal j t.zero = some a

/-- JSON values as far as the fields of an order need them: `null`, an integer
number, a string (its characters as Unicode code points), or any other value. -/
inductive JSONValue where
  | null
  | integer (n : Int)
  | string (runes : List Nat)
  | other
  deriving DecidableEq, Repr

/-- Go's `utf8.DecodeRune` on the bytes `p`: the rune and its width in bytes;
U+FFFD with width 1 for a byte that starts no well-formed encoding (width 0 on
empty input). -/
def decodeRune : List Nat → Nat × Nat
  | [] => (0xFFFD, 0)
  | p0 :: rest =>
    if p0 < 0x80 then (p0, 1)
    else if p0 < 0xC2 then (0xFFFD, 1)
    else if p0 < 0xE0 then
      match rest with
      | b1 :: _ =>
        if 0x80 ≤ b1 ∧ b1 ≤ 0xBF then (p0 % 32 * 64 + b1 % 64, 2) else (0xFFFD, 1)
      | _ => (0xFFFD, 1)
    else if p0 < 0xF0 then
      match rest with
      | b1 :: b2 :: _ =>
        if (if p0 = 0xE0 then 0xA0 else 0x80) ≤ b1 ∧ b1 ≤ (if p0 = 0xED then 0x9F else 0xBF) ∧
            0x80 ≤ b2 ∧ b2 ≤ 0xBF then
          (p0 % 16 * 4096 + b1 % 64 * 64 + b2 % 64, 3)
        else (0xFFFD, 1)
      | _ => (0xFFFD, 1)
    else if p0 < 0xF5 then
      match rest with
      | b1 :: b2 :: b3 :: _ =>
        if (if p0 = 0xF0 then 0x90 else 0x80) ≤ b1 ∧ b1 ≤ (if p0 = 0xF4 then 0x8F else 0xBF) ∧
            0x80 ≤ b2 ∧ b2 ≤ 0xBF ∧ 0x80 ≤ b3 ∧ b3 ≤ 0xBF then
          (p0 % 8 * 262144 + b1 % 64 * 4096 + b2 % 64 * 64 + b3 % 64, 4)
        else (0xFFFD, 1)
      | _ => (0xFFFD, 1)
    else (0xFFFD, 1)

/-- The runes `encoding/json` writes for a Go string: it decodes rune after rune
and replaces every invalid byte by U+FFFD ("String values encode as JSON strings
coerced to valid UTF-8, replacing invalid bytes with the Unicode replacement
rune"). One unit of fuel per rune. -/
def decodeRunes : Nat → List Nat → List Nat
  | 0, _ => []
  | _ + 1, [] => []
  | fuel + 1, p0 :: rest =>
    (decodeRune (p0 :: rest)).1 ::
      decodeRunes fuel ((p0 :: rest).drop (decodeRune (p0 :: rest)).2)

/-- Go's `utf8.AppendRune`: the UTF-8 bytes of a rune, those of U+FFFD for a
surrogate or a value above U+10FFFF. -/
def encodeRune (r : Nat) : List Nat :=
  if r < 0x80 then [r]
  else if r < 0x800 then [0xC0 + r / 64, 0x80 + r % 64]
  else if 0x10FFFF < r ∨ (0xD800 ≤ r ∧ r ≤ 0xDFFF) then [0xEF, 0xBF, 0xBD]
  else if r < 0x10000 then [0xE0 + r / 4096, 0x80 + r / 64 % 64, 0x80 + r % 64]
  else [0xF0 + r / 262144, 0x80 + r / 4096 % 64, 0x80 + r / 64 % 64, 0x80 + r % 64]

/-- The JSON form `encoding/json` gives the Go type `string`: marshalling never
fails and yields the string coerced to valid UTF-8; unmarshalling stores a JSON
string as its UTF-8 bytes, leaves the variable alone on `null` and fails on any
other value. -/
def goString : FieldType JSONValue GoString :=
  { zero := []
    marshal := fun s => some (JSONValue.string (decodeRunes s.length (s.map Fin.val)))
    unmarshal := fun j current =>
      match j with
      | JSONValue.null => some current
      | JSONValue.string runes => some ((runes.flatMap encodeRune).map fun b => Fin.ofNat b)
      | _ => none }

/-- Modelled from the spec: the type `Side` (not in src/), "side ∈ {Buy, Sell}". -/
inductive Side where
  | Sell
  | Buy
  deriving DecidableEq, Repr

/-- A lossless JSON form for integers, standing in for the forms of
`decimal.Decimal` and `time.Time`, which are library code. -/
def exactInt : FieldType JSONValue Int :=
  { zero := 0
    marshal := fun n => some (JSONValue.integer n)
    unmarshal := fun j current =>
      match j with
      | JSONValue.null => some current
      | JSONValue.integer n => some n
      | _ => none }

/-- A lossless JSON form for `Side`, standing in for the one declared outside
src/. -/
def exactSide : FieldType JSONValue Side :=
  { zero := Side.Sell
    marshal := fun s =>
      match s with
      | Side.Sell => some (JSONValue.integer 0)
      | Side.Buy => some (JSONValue.integer 1)
    unmarshal := fun j _ =>
      match j with
      | JSONValue.integer 0 => some Side.Sell
      | JSONValue.integer 1 => some Side.Buy
      | _ => none }

/-- The library as Go has it for `string`, with lossless stand-ins for the three
other field types (decimals and instants are integers here) and upper-casing for
the folding of member names. -/
def goCodecs : Codecs JSONValue Side Int Int :=
  { string := goString, time := exactInt, decimal := exactInt, side := exactSide,
    foldName := String.toUpper }

/-- An order whose id is the single byte 0xFF, which is not valid UTF-8. -/
def badIdOrder : Order Side Int Int :=
  NewOrder [0xFF] [0x61] Side.Buy 5 10 1700000000

/-- An order whose id is "o1" and whose account is "a". -/
def plainOrder : Order Side Int Int :=
  NewOrder [0x6F, 0x31] [0x61] Side.Buy 5 10 1700000000

end Orderbook

/-! ## Theorems, part I : `issueNAgent.Execute` -/

namespace Txs

theorem workerCalls_append {T : Type} (a b : List (Event T)) :
    workerCalls (a ++ b) = workerCalls a ++ workerCalls b := by
  simp [workerCalls]

theorem workerCalls_map_issue {T : Type} (c : List T) :
    workerCalls (c.map Event.IssueTx) = c.map Event.IssueTx := by
  induction c with
  | nil => rfl
  | cons x xs ih =>
    simp only [workerCalls] at ih
    simp [workerCalls, Event.isWorkerCall, ih]

/-- With an issuing worker that never fails and no cancellation, `k` iterations
over a channel holding at least `k` transactions issue exactly the first `k`. -/
theorem issueLoop_full {T : Type} (w : Worker T) (ctx : Context T)
    (hi : ∀ h tx, w.IssueTx h tx = none) (hc : ∀ h, ctx.done h = false)
    (c : List T) : ∀ (txs rest : List T) (st : State T), st.chan = c ++ rest →
      issueLoop w ctx c.length txs st =
        Flow.next (txs ++ c)
          { st with chan := rest, trace := st.trace ++ c.map Event.IssueTx } := by
  induction c with
  | nil =>
    intro txs rest st h
    cases st
    simp_all [issueLoop]
  | cons x xs ih =>
    intro txs rest st h
    cases st with
    | mk trace chan cnt =>
      simp only at h
      subst h
      simp only [List.length_cons, issueLoop, hc, hi, List.cons_append, Bool.false_eq_true,
        if_false]
      rw [ih (txs ++ [x]) rest _ rfl]
      simp

/-- With an issuing worker that never fails and no cancellation, a channel
holding fewer transactions than the iterations left has all of them issued,
then the worker closed, and `Execute` returns what `Close` returned. -/
theorem issueLoop_short {T : Type} (w : Worker T) (ctx : Context T)
    (hi : ∀ h tx, w.IssueTx h tx = none) (hc : ∀ h, ctx.done h = false)
    (r : List T) : ∀ (k : Nat) (txs : List T) (st : State T), st.chan = r → r.length < k →
      issueLoop w ctx k txs st =
        Flow.stopped (Outcome.returned (w.Close (st.trace ++ r.map Event.IssueTx)))
          { st with chan := [], trace := st.trace ++ r.map Event.IssueTx ++ [Event.Close] } := by
  induction r with
  | nil =>
    intro k txs st h hk
    cases st
    cases k with
    | zero => simp at hk
    | succ k => simp_all [issueLoop]
  | cons x xs ih =>
    intro k txs st h hk
    cases st with
    | mk trace chan cnt =>
      simp only at h
      subst h
      cases k with
      | zero => simp at hk
      | succ k =>
        simp only [issueLoop, hc, hi, Bool.false_eq_true, if_false]
        rw [ih k (txs ++ [x]) _ rfl (by simpa using hk)]
        simp

/-- With a confirming worker that never fails and a completion block that comes
back, the confirmation loop confirms the whole batch in order, receives nothing
and falls through. -/
theorem confirmLoop_ok {T : Type} (rt : Runtime) (w : Worker T) (totalTxs : Nat)
    (hm : rt.metrics = MetricsOutcome.returns)
    (hf : ∀ h tx, w.ConfirmTx h tx = none) (txs : List T) :
    ∀ (i : Nat) (st : State T), ∃ st1 : State T,
      confirmLoop rt w totalTxs i txs st = Flow.next [] st1 ∧ st1.chan = st.chan ∧
        workerCalls st1.trace = workerCalls st.trace ++ txs.map Event.ConfirmTx := by
  induction txs with
  | nil =>
    intro i st
    exact ⟨st, by simp [confirmLoop]⟩
  | cons x xs ih =>
    intro i st
    simp only [confirmLoop, hf, hm]
    by_cases hcount : st.confirmedCount + 1 = totalTxs
    · obtain ⟨st1, h1, h2, h3⟩ := ih (i + 1)
        { st with
          confirmedCount := st.confirmedCount + 1
          trace := st.trace ++ [Event.ConfirmTx x] ++ [Event.LogComplete] }
      refine ⟨st1, by rw [if_pos hcount]; exact h1, h2, ?_⟩
      rw [h3]
      simp [workerCalls, Event.isWorkerCall]
    · obtain ⟨st1, h1, h2, h3⟩ := ih (i + 1)
        { st with
          confirmedCount := st.confirmedCount + 1
          trace := st.trace ++ [Event.ConfirmTx x] }
      refine ⟨st1, by rw [if_neg hcount]; exact h1, h2, ?_⟩
      rw [h3]
      simp [workerCalls, Event.isWorkerCall]

/-- The outer loop on a channel made of full batches followed by an incomplete
one. -/
theorem executeLoop_batches {T : Type} (rt : Runtime) (w : Worker T) (ctx : Context T)
    (n totalTxs : Nat) (hcap : n ≤ rt.maxCap) (hm : rt.metrics = MetricsOutcome.returns)
    (hi : ∀ h tx, w.IssueTx h tx = none) (hf : ∀ h tx, w.ConfirmTx h tx = none)
    (hc : ∀ h, ctx.done h = false) (rest : List T) (hr : rest.length < n)
    (chunks : List (List T)) : (∀ c ∈ chunks, c.length = n) →
    ∀ (fuel : Nat) (st : State T), chunks.length < fuel → st.chan = chunks.flatten ++ rest →
      ∃ (tr : List (Event T)) (cnt : Nat),
        executeLoop rt w ctx n totalTxs fuel st =
          some (Outcome.returned (w.Close tr),
            { trace := tr ++ [Event.Close], chan := [], confirmedCount := cnt }) ∧
        workerCalls tr = workerCalls st.trace ++ batchCalls chunks rest := by
  have hnot : ¬ rt.maxCap < n := Nat.not_lt.2 hcap
  induction chunks with
  | nil =>
    intro _ fuel st hfuel hchan
    cases fuel with
    | zero => simp at hfuel
    | succ fuel =>
      simp only [List.flatten_nil, List.nil_append] at hchan
      refine ⟨st.trace ++ rest.map Event.IssueTx, st.confirmedCount, ?_, ?_⟩
      · simp only [executeLoop, hnot, if_false]
        rw [issueLoop_short w ctx hi hc rest n [] st hchan hr]
      · simp [batchCalls, workerCalls_append, workerCalls_map_issue]
  | cons c cs ih =>
    intro hlen fuel st hfuel hchan
    cases fuel with
    | zero => simp at hfuel
    | succ fuel =>
      have hcn : c.length = n := hlen c (List.mem_cons_self _ _)
      have hcs : ∀ d ∈ cs, d.length = n := fun d hd => hlen d (List.mem_cons_of_mem _ hd)
      simp only [List.flatten_cons, List.append_assoc] at hchan
      have h1 := issueLoop_full w ctx hi hc c [] (cs.flatten ++ rest) st hchan
      rw [hcn] at h1
      obtain ⟨st2, h2, h3, h4⟩ := confirmLoop_ok rt w totalTxs hm hf c 0
        { st with chan := cs.flatten ++ rest, trace := st.trace ++ c.map Event.IssueTx }
      obtain ⟨tr, cnt, h5, h6⟩ := ih hcs fuel st2 (by simpa using hfuel) h3
      refine ⟨tr, cnt, ?_, ?_⟩
      · simp only [executeLoop, hnot, if_false, h1, List.nil_append, h2]
        exact h5
      · rw [h6, h4]
        simp [batchCalls, workerCalls_append, workerCalls_map_issue]

/-- C9 as amended. For a batch size `n` that the runtime grants as a slice
capacity, a channel delivering `q` full batches `chunks` (each of length `n`)
followed by `r < n` further transactions `rest` and then closed, a worker whose
`IssueTx` and `ConfirmTx` never fail, a context that is never cancelled and a
completion block that comes back when it runs, `Execute` returns (any fuel above
`q` is enough), its calls on the worker are exactly: per batch, `IssueTx` on each
transaction in order then `ConfirmTx` on each in the same order; then `IssueTx` on
the `r` remaining ones; then one `Close`; and the value returned is what that
`Close` returned. (`n > 0` follows from `r < n`.) -/
theorem execute_batches {T : Type} (rt : Runtime) (n : Nat) (hn : n < 2 ^ 64)
    (chunks : List (List T)) (rest : List T)
    (w : Worker T) (ctx : Context T) (buffered fuel : Nat)
    (hcap : n ≤ rt.maxCap) (hmetrics : rt.metrics = MetricsOutcome.returns)
    (hchunks : ∀ c ∈ chunks, c.length = n) (hrest : rest.length < n)
    (hissue : ∀ h tx, w.IssueTx h tx = none) (hconfirm : ∀ h tx, w.ConfirmTx h tx = none)
    (hctx : ∀ h, ctx.done h = false) (hfuel : chunks.length < fuel) :
    BatchRun rt n hn chunks rest w ctx buffered fuel := by
  have hn0 : n ≠ 0 := by omega
  obtain ⟨tr, cnt, h1, h2⟩ := executeLoop_batches rt w ctx n buffered hcap hmetrics hissue
    hconfirm hctx rest hrest chunks hchunks fuel
    { trace := [], chan := chunks.flatten ++ rest, confirmedCount := 0 } hfuel rfl
  refine ⟨tr, cnt, ?_, ?_⟩
  · simp only [Execute, NewIssueNAgent, hn0, if_false]
    exact h1
  · rw [workerCalls_append, h2]
    simp [workerCalls, Event.isWorkerCall]

/-- Witness of C9 as amended: batch size 2 over the transactions 1, 2, 3, all
three of them buffered in the channel. -/
theorem execute_batches_witness :
    2 ≤ generous.maxCap ∧ generous.metrics = MetricsOutcome.returns ∧
    (∀ c ∈ [[1, 2]], c.length = 2) ∧ [3].length < 2 ∧
    BatchRun generous 2 (by decide) [[1, 2]] [3] (okWorker Nat) (background Nat) 3 2 :=
  ⟨by decide, rfl, by decide, by decide,
    execute_batches generous 2 (by decide) [[1, 2]] [3] (okWorker Nat) (background Nat) 3 2
      (by decide) rfl (by decide) (by decide)
      (fun _ _ => rfl) (fun _ _ => rfl) (fun _ => rfl) (by decide)⟩

/-- C9 fails on the code. With the batch size 18446744073709551615, the largest
`uint64`, and the transactions 1, 2, 3 (so no full batch and three remaining
transactions), an always-succeeding worker and no cancellation, `Execute` panics
at the allocation of line 68 before receiving anything or calling the worker, even
in the most generous runtime: whatever the runtime and the fuel, it does not issue
1, 2, 3 and return what `Close` returned. -/
theorem execute_huge_batch_panics :
    Execute generous
        (NewIssueNAgent { pending := [1, 2, 3], buffered := 3 } (okWorker Nat)
          18446744073709551615 (by decide))
        (background Nat) 1 =
      some (Outcome.panicked "runtime error: makeslice: cap out of range",
        { trace := [], chan := [1, 2, 3], confirmedCount := 0 }) ∧
    ¬ ∃ rt fuel, BatchRun rt 18446744073709551615 (by decide) [] [1, 2, 3]
        (okWorker Nat) (background Nat) 3 fuel := by
  refine ⟨by decide, ?_⟩
  rintro ⟨rt, fuel, tr, cnt, h, _⟩
  have hlt : rt.maxCap < 18446744073709551615 := lt_trans rt.maxCap_lt (by decide)
  cases fuel with
  | zero => simp [Execute, NewIssueNAgent, executeLoop] at h
  | succ fuel => simp [Execute, NewIssueNAgent, executeLoop, hlt] at h

/-- C8. An agent built with batch size 0 returns the error
"batch size n cannot be equal to 0" (whatever the runtime and the fuel), having
taken no step at all (no `IssueTx`, `ConfirmTx` or `Close`) and with every
transaction of the sequence still unreceived. -/
theorem execute_zero_batch {T : Type} (rt : Runtime) (sequence : TxSequence T)
    (w : Worker T) (ctx : Context T) (fuel : Nat) :
    Execute rt (NewIssueNAgent sequence w 0 (by decide)) ctx fuel =
      some (Outcome.returned (some "batch size n cannot be equal to 0"),
        { trace := [], chan := sequence.pending, confirmedCount := 0 }) := by
  simp [Execute, NewIssueNAgent]

/-- C7 fails on the code ("each transaction passed to `IssueTx` is also passed to
`ConfirmTx` before `Execute` returns"). With batch size 2 and the transactions
1, 2, 3 (channel closed after 3), an always-succeeding worker and no cancellation,
`Execute` returns `nil` after the steps IssueTx 1, IssueTx 2, ConfirmTx 1,
ConfirmTx 2, IssueTx 3, Close: transaction 3 was issued and is never confirmed. -/
theorem execute_last_batch_unconfirmed :
    Execute generous
        (NewIssueNAgent { pending := [1, 2, 3], buffered := 0 } (okWorker Nat) 2 (by decide))
        (background Nat) 2 =
      some (Outcome.returned none,
        { trace := [Event.IssueTx 1, Event.IssueTx 2, Event.ConfirmTx 1, Event.ConfirmTx 2,
            Event.IssueTx 3, Event.Close],
          chan := [], confirmedCount := 2 }) ∧
    Event.IssueTx 3 ∈ [Event.IssueTx 1, Event.IssueTx 2, Event.ConfirmTx 1, Event.ConfirmTx 2,
            Event.IssueTx 3, Event.Close] ∧
    Event.ConfirmTx 3 ∉ [Event.IssueTx 1, Event.IssueTx 2, Event.ConfirmTx 1, Event.ConfirmTx 2,
            Event.IssueTx 3, Event.Close] := by
  refine ⟨by decide, by decide, by decide⟩

end Txs

/-! ## Theorems, part II : the order book snapshot -/

namespace Orderbook

theorem countP_lt_countP {α : Type} (p q : α → Bool) (l : List α)
    (h : ∀ x ∈ l, p x = true → q x = true) (a : α) (ha : a ∈ l) (hq : q a = true)
    (hp : p a = false) : l.countP p < l.countP q := by
  induction l with
  | nil => simp at ha
  | cons x xs ih =>
    have hxs : ∀ y ∈ xs, p y = true → q y = true :=
      fun y hy => h y (List.mem_cons_of_mem _ hy)
    have hmono : xs.countP p ≤ xs.countP q := List.countP_mono_left hxs
    rw [List.countP_cons, List.countP_cons]
    rcases List.mem_cons.1 ha with rfl | hmem
    · simp only [hq, hp, if_true]
      simp
      omega
    · have := ih hxs hmem
      by_cases hpx : p x = true
      · have hqx := h x (List.mem_cons_self _ _) hpx
        simp only [hpx, hqx, if_true]
        omega
      · simp only [hpx]
        by_cases hqx : q x = true <;> simp [hqx] <;> omega

theorem lessThan_spec {D : Type} [LinearOrder D] (orders : OrderSide D) (p : D)
    (b : PriceLevel D) (h : orders.LessThan p = some b) :
    b ∈ orders.levels ∧ b.Price < p ∧ ∀ l ∈ orders.levels, l.Price < p → l.Price ≤ b.Price := by
  have hb : b ∈ orders.levels.filter fun l => decide (l.Price < p) := List.argmax_mem h
  have hb2 := List.mem_filter.1 hb
  refine ⟨hb2.1, by simpa using hb2.2, ?_⟩
  intro l hl hlt
  have hl2 : l ∈ orders.levels.filter fun l => decide (l.Price < p) :=
    List.mem_filter.2 ⟨hl, by simpa using hlt⟩
  exact List.le_of_mem_argmax hl2 h

theorem lessThan_none {D : Type} [LinearOrder D] (orders : OrderSide D) (p : D)
    (h : orders.LessThan p = none) : ∀ l ∈ orders.levels, ¬ l.Price < p := by
  intro l hl hlt
  have hnil := List.argmax_eq_none.1 h
  have hl2 : l ∈ orders.levels.filter fun l => decide (l.Price < p) :=
    List.mem_filter.2 ⟨hl, by simpa using hlt⟩
  rw [hnil] at hl2
  simp at hl2

/-- Started at a level `a` of the side with enough fuel, the loop ends, and it
walks from `a` to ever lower prices through every price below `a`. -/
theorem visitLoop_spec {D : Type} [LinearOrder D] (orders : OrderSide D) :
    ∀ (fuel : Nat) (a : PriceLevel D), a ∈ orders.levels →
      (orders.levels.countP fun l => decide (l.Price ≤ a.Price)) ≤ fuel →
      ∃ v, visitLoop orders fuel (some a) = some (a :: v) ∧
        List.Chain' (NextLower orders.levels) (a :: v) ∧
        (∀ x ∈ v, x ∈ orders.levels) ∧
        (∀ l ∈ orders.levels, l.Price < a.Price → l.Price ∈ v.map PriceLevel.Price) := by
  intro fuel
  induction fuel with
  | zero =>
    intro a ha hcount
    have hpos : 0 < orders.levels.countP fun l => decide (l.Price ≤ a.Price) :=
      List.countP_pos_iff.2 ⟨a, ha, by simp⟩
    omega
  | succ fuel ih =>
    intro a ha hcount
    cases hnext : orders.LessThan a.Price with
    | none =>
      refine ⟨[], ?_, by simp, by simp, ?_⟩
      · cases fuel <;> simp [visitLoop, hnext]
      · intro l hl hlt
        exact absurd hlt (lessThan_none orders a.Price hnext l hl)
    | some b =>
      obtain ⟨hb, hba, hmax⟩ := lessThan_spec orders a.Price b hnext
      have hlt : (orders.levels.countP fun l => decide (l.Price ≤ b.Price)) <
          orders.levels.countP fun l => decide (l.Price ≤ a.Price) := by
        apply countP_lt_countP _ _ _ _ a ha
        · simp
        · simpa using hba
        · intro x _ hx
          have hx1 : x.Price ≤ b.Price := by simpa using hx
          simpa using le_trans hx1 (le_of_lt hba)
      obtain ⟨v, hv, hchain, hmem, hcover⟩ := ih b hb (by omega)
      refine ⟨b :: v, ?_, ?_, ?_, ?_⟩
      · simp [visitLoop, hnext, hv]
      · exact List.Chain'.cons ⟨hba, hmax⟩ hchain
      · intro x hx
        rcases List.mem_cons.1 hx with rfl | hx
        · exact hb
        · exact hmem x hx
      · intro l hl hla
        rcases lt_or_eq_of_le (hmax l hl hla) with h1 | h1
        · exact List.mem_cons_of_mem _ (hcover l hl h1)
        · rw [h1]
          simp

/-- With fuel for one pass per level the traversal of a side ends, and it is a
walk from the highest price downwards through every level price. -/
theorem visited_spec {D : Type} [LinearOrder D] (fuel : Nat) (side : Option (OrderSide D))
    (hfuel : (sideLevels side).length ≤ fuel) :
    ∃ v, visited fuel side = some v ∧ HighToLow (sideLevels side) v := by
  cases side with
  | none => exact ⟨[], rfl, by simp [HighToLow, sideLevels]⟩
  | some orders =>
    simp only [sideLevels] at hfuel ⊢
    cases hmax : orders.MaxPriceQueue with
    | none =>
      have hnil : orders.levels = [] := List.argmax_eq_none.1 hmax
      refine ⟨[], ?_, by simp [HighToLow, hnil]⟩
      cases fuel <;> simp [visited, hmax, visitLoop]
    | some a =>
      have ha : a ∈ orders.levels := List.argmax_mem hmax
      have htop : ∀ l ∈ orders.levels, l.Price ≤ a.Price :=
        fun l hl => List.le_of_mem_argmax hl hmax
      obtain ⟨v, hv, hchain, hmem, hcover⟩ := visitLoop_spec orders fuel a ha
        (le_trans (List.countP_le_length _) hfuel)
      refine ⟨a :: v, by simp [visited, hmax, hv], ?_, hchain, ?_, ?_⟩
      · intro first hfirst l hl
        simp at hfirst
        subst hfirst
        exact htop l hl
      · intro x hx
        rcases List.mem_cons.1 hx with rfl | hx
        · exact ha
        · exact hmem x hx
      · intro l hl
        rcases lt_or_eq_of_le (htop l hl) with h1 | h1
        · exact List.mem_cons_of_mem _ (hcover l hl h1)
        · rw [h1]
          simp

/-- The map built by the loop is the fold of the loop body over the visited levels. -/
theorem compileLoop_eq_foldl {D : Type} [LinearOrder D] [Add D] (str : D → String)
    (orders : OrderSide D) : ∀ (fuel : Nat) (level : Option (PriceLevel D)) (queue : PriceMap D),
      compileLoop str orders fuel level queue =
        (visitLoop orders fuel level).map fun v => v.foldl (compileStep str) queue := by
  intro fuel
  induction fuel with
  | zero =>
    intro level queue
    cases level <;> simp [compileLoop, visitLoop]
  | succ fuel ih =>
    intro level queue
    cases level with
    | none => simp [compileLoop, visitLoop]
    | some a =>
      simp only [compileLoop, visitLoop, ih, Option.map_map]
      rfl

theorem compileOrders_eq_foldl {D : Type} [LinearOrder D] [Add D] (str : D → String)
    (fuel : Nat) (side : Option (OrderSide D)) :
    compileOrders str fuel side =
      (visited fuel side).map fun v => v.foldl (compileStep str) (PriceMap.empty D) := by
  cases side with
  | none => rfl
  | some orders => exact compileLoop_eq_foldl str orders fuel _ _

theorem compileStep_apply {D : Type} [Add D] (str : D → String) (queue : PriceMap D)
    (l : PriceLevel D) (k : String) :
    compileStep str queue l k =
      if str l.Price = k then addVolume (queue k) l.Volume else queue k := by
  unfold compileStep
  by_cases h : str l.Price = k
  · subst h
    cases hq : queue (str l.Price) <;> simp [PriceMap.set, addVolume]
  · have h2 : ¬ k = str l.Price := fun e => h e.symm
    cases hq : queue (str l.Price) <;> simp [PriceMap.set, h, h2]

theorem foldl_compileStep_apply {D : Type} [Add D] (str : D → String) (k : String)
    (v : List (PriceLevel D)) : ∀ queue : PriceMap D,
      v.foldl (compileStep str) queue k =
        ((keyed str k v).map PriceLevel.Volume).foldl addVolume (queue k) := by
  induction v with
  | nil => intro queue; rfl
  | cons l ls ih =>
    intro queue
    rw [List.foldl_cons, ih, compileStep_apply]
    by_cases h : str l.Price = k <;> simp [keyed, h, List.filter_cons]

theorem foldl_addVolume_some {D : Type} [AddMonoid D] (xs : List D) :
    ∀ a : D, xs.foldl addVolume (some a) = some (a + xs.sum) := by
  induction xs with
  | nil => intro a; simp
  | cons x xs ih =>
    intro a
    simp [addVolume, ih, add_assoc]

theorem foldl_addVolume_none {D : Type} [AddMonoid D] (xs : List D) :
    xs.foldl addVolume none = if xs.isEmpty then none else some xs.sum := by
  cases xs with
  | nil => rfl
  | cons x xs => simp [addVolume, foldl_addVolume_some]

/-- Value stored under `k` after one traversal from the empty map. -/
theorem foldl_compileStep_empty {D : Type} [AddMonoid D] (str : D → String) (k : String)
    (v : List (PriceLevel D)) :
    v.foldl (compileStep str) (PriceMap.empty D) k = volumeAt str k v := by
  rw [foldl_compileStep_apply]
  show List.foldl addVolume none _ = _
  rw [foldl_addVolume_none]
  cases h : keyed str k v <;> simp [volumeAt, h]

theorem chain_nextLower_pairwise {D : Type} [LinearOrder D] (levels v : List (PriceLevel D))
    (h : List.Chain' (NextLower levels) v) : v.Pairwise fun a b => b.Price < a.Price := by
  have h1 : List.Chain' (fun a b : PriceLevel D => b.Price < a.Price) v :=
    h.imp fun _ _ hab => hab.1
  haveI : IsTrans (PriceLevel D) (fun a b => b.Price < a.Price) :=
    ⟨fun _ _ _ hab hbc => lt_trans hbc hab⟩
  exact List.chain'_iff_pairwise.1 h1

theorem eq_singleton_of_forall_eq {α : Type} (w : List α) (a : α) (hn : w.Nodup)
    (ha : a ∈ w) (hall : ∀ y ∈ w, y = a) : w = [a] := by
  cases w with
  | nil => simp at ha
  | cons x xs =>
    have hx : x = a := hall x (List.mem_cons_self _ _)
    subst hx
    cases xs with
    | nil => rfl
    | cons y ys =>
      have hy : y = x := hall y (by simp)
      subst hy
      simp at hn

/-- One side of C2: when the side has one level per price and distinct prices of
the side have distinct strings, the compiled map is the snapshot of the side. -/
theorem compileOrders_snapshot {D : Type} [LinearOrder D] [AddMonoid D] (str : D → String)
    (fuel : Nat) (side : Option (OrderSide D))
    (hfuel : (sideLevels side).length ≤ fuel)
    (huniq : ((sideLevels side).map PriceLevel.Price).Nodup)
    (hkey : ∀ a ∈ sideLevels side, ∀ b ∈ sideLevels side,
      str a.Price = str b.Price → a.Price = b.Price) :
    ∃ queue, compileOrders str fuel side = some queue ∧
      Snapshot str (sideLevels side) queue := by
  obtain ⟨v, hv, _, hchain, hmem, hcover⟩ := visited_spec fuel side hfuel
  refine ⟨v.foldl (compileStep str) (PriceMap.empty D), ?_, ?_, ?_⟩
  · rw [compileOrders_eq_foldl, hv]
    rfl
  · intro l hl
    have hinj := List.inj_on_of_nodup_map huniq
    obtain ⟨x, hx, hxl⟩ := List.mem_map.1 (hcover l hl)
    have hxeq : x = l := hinj (hmem x hx) hl hxl
    subst hxeq
    have hnodup : v.Nodup :=
      (chain_nextLower_pairwise _ v hchain).imp fun hab e => by
        rw [e] at hab
        exact lt_irrefl _ hab
    have hk : keyed str (str x.Price) v = [x] := by
      apply eq_singleton_of_forall_eq _ _ (hnodup.filter _)
      · exact List.mem_filter.2 ⟨hx, by simp⟩
      · intro y hy
        have hy2 := List.mem_filter.1 hy
        have hys : str y.Price = str x.Price := by simpa using hy2.2
        exact hinj (hmem y hy2.1) hl (hkey y (hmem y hy2.1) x hl hys)
    rw [foldl_compileStep_empty]
    simp [volumeAt, hk]
  · intro k hk
    rw [foldl_compileStep_empty] at hk
    cases hw : keyed str k v with
    | nil => simp [volumeAt, hw] at hk
    | cons y ys =>
      have hy : y ∈ keyed str k v := by simp [hw]
      have hy2 := List.mem_filter.1 hy
      exact ⟨y, hmem y hy2.1, by simpa using hy2.2⟩

/-- C2. For every book in which each side holds at most one level per price
(distinct prices of a side having distinct `String()` forms, as canonical decimal
strings do), `MarketOverview` returns a view (fuel for one pass per level is
enough) whose `Asks` is the snapshot of the ask side and whose `Bids` is the
snapshot of the bid side: under the price string of every level the map stores
that level's `Volume()`, and every key of the map is the price string of a
level. -/
theorem marketOverview_snapshot {D : Type} [LinearOrder D] [AddMonoid D] (str : D → String)
    (fuel : Nat) (ob : OrderBook D)
    (hfuelAsks : (sideLevels ob.asks).length ≤ fuel)
    (hfuelBids : (sideLevels ob.bids).length ≤ fuel)
    (huniqAsks : ((sideLevels ob.asks).map PriceLevel.Price).Nodup)
    (huniqBids : ((sideLevels ob.bids).map PriceLevel.Price).Nodup)
    (hkeyAsks : ∀ a ∈ sideLevels ob.asks, ∀ b ∈ sideLevels ob.asks,
      str a.Price = str b.Price → a.Price = b.Price)
    (hkeyBids : ∀ a ∈ sideLevels ob.bids, ∀ b ∈ sideLevels ob.bids,
      str a.Price = str b.Price → a.Price = b.Price) :
    ∃ mv, ob.MarketOverview str fuel = some mv ∧
      Snapshot str (sideLevels ob.asks) mv.Asks ∧
      Snapshot str (sideLevels ob.bids) mv.Bids := by
  obtain ⟨qa, ha, hsa⟩ := compileOrders_snapshot str fuel ob.asks hfuelAsks huniqAsks hkeyAsks
  obtain ⟨qb, hb, hsb⟩ := compileOrders_snapshot str fuel ob.bids hfuelBids huniqBids hkeyBids
  exact ⟨{ Asks := qa, Bids := qb }, by simp [OrderBook.MarketOverview, ha, hb], hsa, hsb⟩

/-- Witness of C2 on `sampleBook`, prices printed in decimal. -/
theorem marketOverview_snapshot_witness :
    (sideLevels sampleBook.asks).length ≤ 2 ∧ (sideLevels sampleBook.bids).length ≤ 2 ∧
    ((sideLevels sampleBook.asks).map PriceLevel.Price).Nodup ∧
    ((sideLevels sampleBook.bids).map PriceLevel.Price).Nodup ∧
    ∃ mv, sampleBook.MarketOverview (fun d : Int => toString d) 2 = some mv ∧
      Snapshot (fun d : Int => toString d) (sideLevels sampleBook.asks) mv.Asks ∧
      Snapshot (fun d : Int => toString d) (sideLevels sampleBook.bids) mv.Bids :=
  ⟨by decide, by decide, by decide, by decide,
    marketOverview_snapshot (fun d : Int => toString d) 2 sampleBook (by decide) (by decide)
      (by decide) (by decide) (by decide) (by decide)⟩

/-- C3 as amended. For each side of every book the traversal made by
`MarketOverview` ends (fuel for one pass per level is enough), starts at that
side's highest-priced level and moves at every later step to the next
lower-priced level of that side, until no level remains; the two maps of the view
are the folds of the loop body over these two walks. -/
theorem marketOverview_traversal {D : Type} [LinearOrder D] [AddMonoid D] (str : D → String)
    (fuel : Nat) (ob : OrderBook D)
    (hfuelAsks : (sideLevels ob.asks).length ≤ fuel)
    (hfuelBids : (sideLevels ob.bids).length ≤ fuel) :
    ∃ va vb, visited fuel ob.asks = some va ∧ visited fuel ob.bids = some vb ∧
      HighToLow (sideLevels ob.asks) va ∧ HighToLow (sideLevels ob.bids) vb ∧
      ob.MarketOverview str fuel =
        some { Asks := va.foldl (compileStep str) (PriceMap.empty D),
               Bids := vb.foldl (compileStep str) (PriceMap.empty D) } := by
  obtain ⟨va, ha, hwa⟩ := visited_spec fuel ob.asks hfuelAsks
  obtain ⟨vb, hb, hwb⟩ := visited_spec fuel ob.bids hfuelBids
  refine ⟨va, vb, ha, hb, hwa, hwb, ?_⟩
  simp [OrderBook.MarketOverview, compileOrders_eq_foldl, ha, hb]

/-- Witness of C3 as amended, on `sampleBook`. -/
theorem marketOverview_traversal_witness :
    (sideLevels sampleBook.asks).length ≤ 2 ∧ (sideLevels sampleBook.bids).length ≤ 2 ∧
    ∃ va vb, visited 2 sampleBook.asks = some va ∧ visited 2 sampleBook.bids = some vb ∧
      HighToLow (sideLevels sampleBook.asks) va ∧ HighToLow (sideLevels sampleBook.bids) vb ∧
      sampleBook.MarketOverview (fun d : Int => toString d) 2 =
        some { Asks := va.foldl (compileStep fun d : Int => toString d) (PriceMap.empty Int),
               Bids := vb.foldl (compileStep fun d : Int => toString d) (PriceMap.empty Int) } :=
  ⟨by decide, by decide,
    marketOverview_traversal (fun d : Int => toString d) 2 sampleBook (by decide) (by decide)⟩

/-- C3 fails on the code: on the book `twoAsks` the ask side is walked from the
level at price 2 to the level at price 1, never from its lowest-priced level
upwards, whatever the fuel. -/
theorem marketOverview_asks_not_best_first : ¬ ∃ fuel, BestToWorst fuel twoAsks := by
  rintro ⟨fuel, va, vb, ha, _, ⟨hfirst, _⟩, _⟩
  have hmax : (OrderSide.mk [({ price := 1, volume := 10 } : PriceLevel Int),
      { price := 2, volume := 20 }]).MaxPriceQueue = some { price := 2, volume := 20 } := by
    decide
  have hnext : (OrderSide.mk [({ price := 1, volume := 10 } : PriceLevel Int),
      { price := 2, volume := 20 }]).LessThan (2 : Int) = some { price := 1, volume := 10 } := by
    decide
  rcases fuel with _ | fuel
  · simp [twoAsks, visited, hmax, visitLoop] at ha
  · simp only [twoAsks, visited, hmax, visitLoop, PriceLevel.Price, hnext, Option.map_eq_some']
      at ha
    obtain ⟨rest, _, hva⟩ := ha
    subst hva
    have h21 := hfirst { price := 2, volume := 20 } (by simp)
      { price := 1, volume := 10 } (by simp [twoAsks, sideLevels])
    simp [PriceLevel.Price] at h21

/-- C4. For every book neither side of which holds a level (the side is nil, or
its `MaxPriceQueue` returns none), `MarketOverview` returns, whatever the fuel, the
view whose `Asks` and `Bids` are both the empty map. -/
theorem marketOverview_empty {D : Type} [LinearOrder D] [AddMonoid D] (str : D → String)
    (fuel : Nat) (ob : OrderBook D)
    (hasks : ∀ orders, ob.asks = some orders → orders.MaxPriceQueue = none)
    (hbids : ∀ orders, ob.bids = some orders → orders.MaxPriceQueue = none) :
    ob.MarketOverview str fuel =
      some { Asks := PriceMap.empty D, Bids := PriceMap.empty D } := by
  have key : ∀ side : Option (OrderSide D),
      (∀ orders, side = some orders → orders.MaxPriceQueue = none) →
      compileOrders str fuel side = some (PriceMap.empty D) := by
    intro side h
    cases side with
    | none => rfl
    | some orders =>
      have h1 := h orders rfl
      cases fuel <;> simp [compileOrders, h1, compileLoop]
  simp [OrderBook.MarketOverview, key ob.asks hasks, key ob.bids hbids]

/-- Witness of C4: a book with a nil ask side and a bid side without levels. -/
theorem marketOverview_empty_witness :
    (∀ orders, (none : Option (OrderSide Int)) = some orders → orders.MaxPriceQueue = none) ∧
    (∀ orders, some ({ levels := [] } : OrderSide Int) = some orders →
      orders.MaxPriceQueue = none) ∧
    ({ asks := none, bids := some { levels := [] } } : OrderBook Int).MarketOverview
        (fun d : Int => toString d) 0 =
      some { Asks := PriceMap.empty Int, Bids := PriceMap.empty Int } :=
  ⟨by simp, by intro orders h; cases h; rfl,
    marketOverview_empty (fun d : Int => toString d) 0
      ({ asks := none, bids := some { levels := [] } } : OrderBook Int)
      (by simp) (by intro orders h; cases h; rfl)⟩

/-- C5. One `compileOrders` traversal (fuel for one pass per level is enough)
stores under every key `k` the sum of `Volume()` over all visited levels whose
`Price().String()` is `k`, and has no entry for a key no visited level produces:
volumes of levels with the same key are added, none overwrites another. -/
theorem compileOrders_sums {D : Type} [LinearOrder D] [AddMonoid D] (str : D → String)
    (fuel : Nat) (side : Option (OrderSide D))
    (hfuel : (sideLevels side).length ≤ fuel) :
    ∃ v queue, visited fuel side = some v ∧ compileOrders str fuel side = some queue ∧
      ∀ k, queue k = volumeAt str k v := by
  obtain ⟨v, hv, _⟩ := visited_spec fuel side hfuel
  refine ⟨v, v.foldl (compileStep str) (PriceMap.empty D), hv, ?_, ?_⟩
  · rw [compileOrders_eq_foldl, hv]
    rfl
  · intro k
    exact foldl_compileStep_empty str k v

/-- Witness of C5: the ask side of `twoAsks` under a `String()` that prints every
price alike, so that both levels produce the same key. -/
theorem compileOrders_sums_witness :
    (sideLevels twoAsks.asks).length ≤ 2 ∧
    ∃ v queue, visited 2 twoAsks.asks = some v ∧
      compileOrders (fun _ : Int => "p") 2 twoAsks.asks = some queue ∧
      ∀ k, queue k = volumeAt (fun _ : Int => "p") k v :=
  ⟨by decide, compileOrders_sums (fun _ : Int => "p") 2 twoAsks.asks (by decide)⟩

/-- C6. `GetOrderSide` is total; it returns the bid side when the requested side
is `Buy` and the ask side for every other value, in particular for `Sell`. -/
theorem getOrderSide_spec {D Side : Type} [DecidableEq Side] (Buy Sell : Side)
    (hne : Sell ≠ Buy) (ob : OrderBook D) (s : Side) :
    (s = Buy → ob.GetOrderSide Buy s = ob.bids) ∧
    (s ≠ Buy → ob.GetOrderSide Buy s = ob.asks) ∧
    ob.GetOrderSide Buy Buy = ob.bids ∧
    ob.GetOrderSide Buy Sell = ob.asks := by
  refine ⟨?_, ?_, ?_, ?_⟩
  · intro h
    simp [OrderBook.GetOrderSide, h]
  · intro h
    simp [OrderBook.GetOrderSide, h]
  · simp [OrderBook.GetOrderSide]
  · simp [OrderBook.GetOrderSide, hne]

/-- Witness of C6 on `sampleBook`, asked for its `Sell` side. -/
theorem getOrderSide_spec_witness :
    Side.Sell ≠ Side.Buy ∧
    ((Side.Sell = Side.Buy → sampleBook.GetOrderSide Side.Buy Side.Sell = sampleBook.bids) ∧
    (Side.Sell ≠ Side.Buy → sampleBook.GetOrderSide Side.Buy Side.Sell = sampleBook.asks) ∧
    sampleBook.GetOrderSide Side.Buy Side.Buy = sampleBook.bids ∧
    sampleBook.GetOrderSide Side.Buy Side.Sell = sampleBook.asks) :=
  ⟨by decide, getOrderSide_spec Side.Buy Side.Sell (by decide) sampleBook Side.Sell⟩

/-! ## Theorems, part III : the wire form of an order -/

/-- C1 as amended. For every order each of whose six field values survives the
JSON form of its own type (`json.Marshal` succeeds on it and `json.Unmarshal` of
the result into a zero variable gives it back), `MarshalJSON` succeeds and
`UnmarshalJSON` applied to what it produced succeeds and yields an order equal to
the original on every field: id, accountId, timestamp, quantity, price and side.
Whatever the library does with the field types, the two methods lose nothing of
their own: they use the same six member names in both directions. -/
theorem order_json_roundtrip {J Side D Time : Type} (c : Codecs J Side D Time)
    (o : Order Side D Time)
    (hid : c.string.RoundTrips o.id) (haccount : c.string.RoundTrips o.accountId)
    (htime : c.time.RoundTrips o.timestamp) (hquantity : c.decimal.RoundTrips o.quantity)
    (hprice : c.decimal.RoundTrips o.price) (hside : c.side.RoundTrips o.side) :
    ∃ data, o.MarshalJSON c = some data ∧ Order.UnmarshalJSON c data = some o := by
  obtain ⟨j1, m1, u1⟩ := hid
  obtain ⟨j2, m2, u2⟩ := haccount
  obtain ⟨j3, m3, u3⟩ := htime
  obtain ⟨j4, m4, u4⟩ := hquantity
  obtain ⟨j5, m5, u5⟩ := hprice
  obtain ⟨j6, m6, u6⟩ := hside
  refine ⟨_, by simp only [Order.MarshalJSON, marshalRecord, m1, m2, m3, m4, m5, m6]; rfl, ?_⟩
  have l1 : Field.lookup c.foldName "id" = some Field.ID := by
    simp [Field.lookup, Field.all, Field.tag]
  have l2 : Field.lookup c.foldName "accountId" = some Field.AccountId := by
    simp [Field.lookup, Field.all, Field.tag]
  have l3 : Field.lookup c.foldName "timestamp" = some Field.Timestamp := by
    simp [Field.lookup, Field.all, Field.tag]
  have l4 : Field.lookup c.foldName "quantity" = some Field.Quantity := by
    simp [Field.lookup, Field.all, Field.tag]
  have l5 : Field.lookup c.foldName "price" = some Field.Price := by
    simp [Field.lookup, Field.all, Field.tag]
  have l6 : Field.lookup c.foldName "side" = some Field.S := by
    simp [Field.lookup, Field.all, Field.tag]
  simp [Order.UnmarshalJSON, unmarshalRecord, storeMembers, storeMember, Field.tag,
    l1, l2, l3, l4, l5, l6, u1, u2, u3, u4, u5, u6]

/-- Witness of C1 as amended: the order `plainOrder`, whose id and account are
ASCII text. -/
theorem order_json_roundtrip_witness :
    goCodecs.string.RoundTrips plainOrder.id ∧ goCodecs.string.RoundTrips plainOrder.accountId ∧
    goCodecs.time.RoundTrips plainOrder.timestamp ∧
    goCodecs.decimal.RoundTrips plainOrder.quantity ∧
    goCodecs.decimal.RoundTrips plainOrder.price ∧ goCodecs.side.RoundTrips plainOrder.side ∧
    ∃ data, plainOrder.MarshalJSON goCodecs = some data ∧
      Order.UnmarshalJSON goCodecs data = some plainOrder :=
  ⟨⟨_, rfl, by decide⟩, ⟨_, rfl, by decide⟩, ⟨_, rfl, rfl⟩, ⟨_, rfl, rfl⟩, ⟨_, rfl, rfl⟩,
    ⟨_, rfl, rfl⟩,
    order_json_roundtrip goCodecs plainOrder ⟨_, rfl, by decide⟩ ⟨_, rfl, by decide⟩
      ⟨_, rfl, rfl⟩ ⟨_, rfl, rfl⟩ ⟨_, rfl, rfl⟩ ⟨_, rfl, rfl⟩⟩

/-- C1 fails on the code. The order `badIdOrder` has the one-byte id 0xFF, which
is not valid UTF-8: `MarshalJSON` succeeds, `encoding/json` writes the id as the
replacement character U+FFFD, and `UnmarshalJSON` of the result yields an order
whose id is the three bytes EF BF BD, all other fields unchanged. No output of
`MarshalJSON` decodes back to `badIdOrder`. -/
theorem order_json_bad_id_not_reproduced :
    (badIdOrder.MarshalJSON goCodecs).bind (Order.UnmarshalJSON goCodecs) =
      some (NewOrder [0xEF, 0xBF, 0xBD] [0x61] Side.Buy 5 10 1700000000) ∧
    ¬ ∃ data, badIdOrder.MarshalJSON goCodecs = some data ∧
      Order.UnmarshalJSON goCodecs data = some badIdOrder := by
  have h : (badIdOrder.MarshalJSON goCodecs).bind (Order.UnmarshalJSON goCodecs) =
      some (NewOrder [0xEF, 0xBF, 0xBD] [0x61] Side.Buy 5 10 1700000000) := by decide
  refine ⟨h, ?_⟩
  rintro ⟨data, h1, h2⟩
  rw [h1, Option.some_bind, h2] at h
  exact absurd h (by decide)

end Orderbook
